import Mathlib

/-!
Shallow embedding of `src/evomof/core/frame.py` (class `Frame`).

A frame is an `(n, d)` complex matrix, modelled as `Fin n → Fin d → ℂ` with
exact real/complex arithmetic in place of IEEE doubles.  Row norms, the
gauge fix (`renormalise`), the tangent projection (`project`), the
exponential map (`retract`) and the logarithmic map (`log_map`) are
translated operation by operation from the source.  The total division of NumPy
is modelled by the total division of Lean on `ℝ`/`ℂ` (division by zero yields
zero).
-/

namespace Evomof

/-- A row of a frame: one complex `d`-dimensional vector. -/
abbrev Row (d : ℕ) := Fin d → ℂ

/-- An `(n, d)` complex matrix, the `vectors` attribute of a `Frame`. -/
abbrev Mat (n d : ℕ) := Fin n → Fin d → ℂ

/-- The numerical threshold `1e-12` used by `Frame.retract` and
`Frame.log_map` to detect vanishing norms/angles. -/
noncomputable def eps : ℝ := 1e-12

/-- Squared Euclidean norm of a row: `Σ_j |v_j|²`. -/
noncomputable def rowNormSq {d : ℕ} (v : Row d) : ℝ :=
  ∑ j, Complex.normSq (v j)

/-- Euclidean norm of a row (`np.linalg.norm(vec)`). -/
noncomputable def rowNorm {d : ℕ} (v : Row d) : ℝ :=
  Real.sqrt (rowNormSq v)

/-- The real part of the complex inner product `⟨f, g⟩ = Σ_j conj(f_j)·g_j`,
i.e. `np.real(np.sum(f.conj() * g))`. -/
noncomputable def innerRe {d : ℕ} (f g : Row d) : ℝ :=
  ∑ j, ((starRingEnd ℂ) (f j) * g j).re

/-- Division of a row by its Euclidean norm (`self.vectors /= norms`). -/
noncomputable def normaliseRow {d : ℕ} (v : Row d) : Row d :=
  fun j => v j / (rowNorm v : ℂ)

/-- Index of the first non-zero coordinate of a row
(`np.flatnonzero(vec)[0]` when it exists; `none` for the zero row).
The code tests exact inequality with `0`. -/
noncomputable def firstNonzero {d : ℕ} (v : Row d) : Option (Fin d) :=
  if h : (Finset.univ.filter fun j : Fin d => v j ≠ 0).Nonempty
  then some ((Finset.univ.filter fun j : Fin d => v j ≠ 0).min' h)
  else none

/-- Phase fix of a row: multiply by `exp(-i·angle(vec[nz[0]]))` when the row
has a non-zero coordinate; a row with no non-zero coordinate is left
untouched (`if nz.size:` guard in `Frame.renormalise`). -/
noncomputable def gaugeFixRow {d : ℕ} (v : Row d) : Row d :=
  match firstNonzero v with
  | none => v
  | some j => fun k => v k * Complex.exp (-(Complex.arg (v j) : ℂ) * Complex.I)

/-- One row of `Frame.renormalise`: divide by the norm, then fix the phase. -/
noncomputable def renormaliseRow {d : ℕ} (v : Row d) : Row d :=
  gaugeFixRow (normaliseRow v)

/-- Whole-matrix gauge fix: `Frame.renormalise` applied row by row. -/
noncomputable def renormalise {n d : ℕ} (M : Mat n d) : Mat n d :=
  fun i => renormaliseRow (M i)

/-- Model of `Frame.from_array`: wrap a 2-D array and renormalise.  (The 2-D check is
type-level here; the `copy` flag has no observable value-level effect.) -/
noncomputable def fromArray {n d : ℕ} (M : Mat n d) : Mat n d :=
  renormalise M

/-- Model of `Frame.random`: normalise an arbitrary complex Gaussian sample `Z`
through the construction path.  The sample is an explicit parameter since
the generator state is external. -/
noncomputable def randomFrame {n d : ℕ} (Z : Mat n d) : Mat n d :=
  fromArray Z

/-- Model of `Frame.copy`: `Frame.from_array(self.vectors, copy=True)`. -/
noncomputable def copyFrame {n d : ℕ} (M : Mat n d) : Mat n d :=
  fromArray M

/-- Model of `Frame.load_npy`: load an array and pass it through `from_array`. -/
noncomputable def loadNpy {n d : ℕ} (A : Mat n d) : Mat n d :=
  fromArray A

/-- Value-level effect of the raw dataclass constructor
`Frame(vectors)` / `__post_init__`: the 2-D check is type-level and the
`complex128` cast is the identity on `ℂ`, so the stored matrix is the
input unchanged — no renormalisation happens here. -/
def mkRaw {n d : ℕ} (M : Mat n d) : Mat n d := M

/-- The Gram matrix `G = V Vᴴ` (`Frame.gram`). -/
noncomputable def gram {n d : ℕ} (M : Mat n d) : Fin n → Fin n → ℂ :=
  fun i k => ∑ j, M i j * (starRingEnd ℂ) (M k j)

/-- Model of `Frame.chordal_distances`: `g = |G|²` with the diagonal forced to `1`,
then `2·sqrt(max(1 − g, 0))`. -/
noncomputable def chordalDistances {n d : ℕ} (M : Mat n d) : Fin n → Fin n → ℝ :=
  fun i k =>
    2 * Real.sqrt (max (1 - (if i = k then 1 else Complex.abs (gram M i k) ^ 2)) 0)

/-- Model of `Frame.project`: subtract the radial component
`Re(Σ conj(arr)·vectors)` row-wise. -/
noncomputable def project {n d : ℕ} (F A : Mat n d) : Mat n d :=
  fun i j => A i j - (innerRe (A i) (F i) : ℂ) * F i j

/-- One row of the exponential-map step of `Frame.retract`, before the final
renormalisation: `cos θ · f + (sin θ / θ) · ξ`, with the first-order
fallback `(1 − θ²/2) · f + ξ` when `θ < 1e-12`. -/
noncomputable def retractRow {d : ℕ} (f t : Row d) : Row d :=
  if rowNorm t < eps then
    fun j => ((1 - rowNorm t ^ 2 / 2 : ℝ) : ℂ) * f j + t j
  else
    fun j => ((Real.cos (rowNorm t) : ℝ) : ℂ) * f j
      + ((Real.sin (rowNorm t) / rowNorm t : ℝ) : ℂ) * t j

/-- Model of `Frame.retract`: per-row geodesic step followed by
`Frame.from_array(new_vecs)`, i.e. renormalisation. -/
noncomputable def retract {n d : ℕ} (F T : Mat n d) : Mat n d :=
  fromArray (fun i => retractRow (F i) (T i))

/-- The clipped inner product `np.clip(Re⟨f, g⟩, -1, 1)` of `Frame.log_map`. -/
noncomputable def clipInner {d : ℕ} (f g : Row d) : ℝ :=
  max (-1) (min 1 (innerRe f g))

/-- The per-row great-circle angle `θ = arccos(clip(Re⟨f, g⟩, -1, 1))`
computed by `Frame.log_map`. -/
noncomputable def thetaRow {d : ℕ} (f g : Row d) : ℝ :=
  Real.arccos (clipInner f g)

/-- Model of `Frame.log_map`: `ξ_i = scale_i · (g_i − inner_i · f_i)` with
`scale_i = θ_i / sin θ_i` when `θ_i > 1e-12` and `0` otherwise. -/
noncomputable def logMap {n d : ℕ} (F G : Mat n d) : Mat n d :=
  fun i j =>
    ((if thetaRow (F i) (G i) > eps
        then thetaRow (F i) (G i) / Real.sin (thetaRow (F i) (G i))
        else 0 : ℝ) : ℂ)
      * (G i j - (clipInner (F i) (G i) : ℂ) * F i j)

/-- The manifold invariant for one row: unit Euclidean norm, and the first
non-zero coordinate (when it exists) is real and strictly positive. -/
def ValidRow {d : ℕ} (v : Row d) : Prop :=
  rowNorm v = 1 ∧
    ∀ j, firstNonzero v = some j → (v j).im = 0 ∧ 0 < (v j).re

/-- The manifold invariant for a whole frame. -/
def IsValid {n d : ℕ} (M : Mat n d) : Prop :=
  ∀ i, ValidRow (M i)

/-- Tangency of an array to a frame: `Re⟨F_i, ξ_i⟩ = 0` for every row. -/
def IsTangent {n d : ℕ} (F T : Mat n d) : Prop :=
  ∀ i, innerRe (F i) (T i) = 0

/-- A complex matrix together with its runtime shape, for the shape checks
that `retract`/`log_map` perform before computing. -/
structure CMat where
  n : ℕ
  d : ℕ
  entry : Fin n → Fin d → ℂ

/-- Shape-checked `Frame.retract`: `if tang.shape != self.shape: raise
ValueError("Tangent array shape mismatch.")`, else compute. -/
noncomputable def retractChk (F T : CMat) : Except String CMat :=
  if h : T.n = F.n ∧ T.d = F.d then
    Except.ok ⟨F.n, F.d,
      retract F.entry (fun i j => T.entry (Fin.cast h.1.symm i) (Fin.cast h.2.symm j))⟩
  else
    Except.error "Tangent array shape mismatch."

/-- Shape-checked `Frame.log_map`: `if self.shape != other.shape: raise
ValueError("Frame shapes mismatch")`, else compute. -/
noncomputable def logMapChk (F G : CMat) : Except String CMat :=
  if h : F.n = G.n ∧ F.d = G.d then
    Except.ok ⟨F.n, F.d,
      logMap F.entry (fun i j => G.entry (Fin.cast h.1 i) (Fin.cast h.2 j))⟩
  else
    Except.error "Frame shapes mismatch"

/-- IEEE view of one complex entry on the degenerate `renormalise` path:
`none` stands for a non-finite value such as `nan+nanj`.  The exact
embedding above models NumPy division by a total division with
`x / 0 = 0`; that is faithful whenever the row norm is non-zero, but the
behaviour of `renormalise` on an identically zero row is decided by the
floating-point facts `0.0 / 0.0 = nan` and `nan != 0`, which this small
model captures. -/
def FloatEntry : Type := Option ℂ

/-- Division of a row entry by the row norm as NumPy computes it
(`self.vectors /= norms`): a zero norm makes the quotient non-finite —
for an identically zero row every entry is `0.0 / 0.0 = nan+nanj` — and a
non-zero norm gives the exact quotient. -/
noncomputable def divByNorm {d : ℕ} (v : Row d) (j : Fin d) : FloatEntry :=
  if rowNorm v = 0 then none else some (v j / (rowNorm v : ℂ))

/-- The entrywise test `vec != 0` performed by `np.flatnonzero`: an IEEE
comparison, under which `nan != 0` is true, so a non-finite entry counts
as non-zero and is picked up by the gauge-fix branch. -/
def flatnonzeroTest : FloatEntry → Prop
  | none => True
  | some z => z ≠ 0

/-- NaN-propagating multiplication: a product with a non-finite factor is
non-finite (`nan * x = nan`), as in the in-place gauge multiply
`vec *= exp(-1j * phase)`. -/
def mulF : FloatEntry → FloatEntry → FloatEntry
  | none, _ => none
  | _, none => none
  | some a, some b => some (a * b)

/-! ### Row norms and the real inner product -/

theorem rowNormSq_nonneg {d : ℕ} (v : Row d) : 0 ≤ rowNormSq v :=
  Finset.sum_nonneg fun j _ => Complex.normSq_nonneg (v j)

theorem rowNorm_nonneg {d : ℕ} (v : Row d) : 0 ≤ rowNorm v :=
  Real.sqrt_nonneg _

theorem rowNormSq_eq_zero_iff {d : ℕ} {v : Row d} : rowNormSq v = 0 ↔ v = 0 := by
  unfold rowNormSq
  rw [Finset.sum_eq_zero_iff_of_nonneg fun j _ => Complex.normSq_nonneg (v j)]
  constructor
  · intro h; funext j
    exact Complex.normSq_eq_zero.mp (h j (Finset.mem_univ j))
  · intro h j _
    rw [h]; simp

theorem rowNorm_eq_zero_iff {d : ℕ} {v : Row d} : rowNorm v = 0 ↔ v = 0 := by
  unfold rowNorm
  rw [Real.sqrt_eq_zero (rowNormSq_nonneg v)]
  exact rowNormSq_eq_zero_iff

theorem rowNorm_sq {d : ℕ} (v : Row d) : rowNorm v ^ 2 = rowNormSq v :=
  Real.sq_sqrt (rowNormSq_nonneg v)

theorem rowNormSq_of_rowNorm_one {d : ℕ} {v : Row d} (h : rowNorm v = 1) :
    rowNormSq v = 1 := by
  rw [← rowNorm_sq, h]; norm_num

theorem re_conj_mul (z w : ℂ) :
    ((starRingEnd ℂ) z * w).re = z.re * w.re + z.im * w.im := by
  simp [Complex.mul_re, Complex.conj_re, Complex.conj_im]

theorem innerRe_comm {d : ℕ} (f g : Row d) : innerRe f g = innerRe g f := by
  unfold innerRe
  refine Finset.sum_congr rfl fun j _ => ?_
  rw [re_conj_mul, re_conj_mul]; ring

theorem innerRe_self {d : ℕ} (v : Row d) : innerRe v v = rowNormSq v := by
  unfold innerRe rowNormSq
  refine Finset.sum_congr rfl fun j _ => ?_
  rw [re_conj_mul, Complex.normSq_apply]

theorem innerRe_combo_right {d : ℕ} (f g h : Row d) (a b : ℝ) :
    innerRe f (fun j => (a : ℂ) * g j + (b : ℂ) * h j)
      = a * innerRe f g + b * innerRe f h := by
  unfold innerRe
  rw [Finset.mul_sum, Finset.mul_sum, ← Finset.sum_add_distrib]
  refine Finset.sum_congr rfl fun j _ => ?_
  simp [re_conj_mul, Complex.add_re, Complex.add_im, Complex.mul_re, Complex.mul_im,
    Complex.ofReal_re, Complex.ofReal_im]
  ring

theorem rowNormSq_combo {d : ℕ} (f g : Row d) (a b : ℝ) :
    rowNormSq (fun j => (a : ℂ) * f j + (b : ℂ) * g j)
      = a ^ 2 * rowNormSq f + 2 * a * b * innerRe f g + b ^ 2 * rowNormSq g := by
  unfold rowNormSq innerRe
  rw [Finset.mul_sum, Finset.mul_sum, Finset.mul_sum, ← Finset.sum_add_distrib,
    ← Finset.sum_add_distrib]
  refine Finset.sum_congr rfl fun j _ => ?_
  simp [Complex.normSq_apply, re_conj_mul, Complex.add_re, Complex.add_im,
    Complex.mul_re, Complex.mul_im, Complex.ofReal_re, Complex.ofReal_im]
  ring

theorem rowNormSq_sub {d : ℕ} (f g : Row d) :
    rowNormSq (fun j => f j - g j)
      = rowNormSq f - 2 * innerRe f g + rowNormSq g := by
  have h : (fun j => f j - g j)
      = fun j => ((1 : ℝ) : ℂ) * f j + ((-1 : ℝ) : ℂ) * g j := by
    funext j; push_cast; ring
  rw [h, rowNormSq_combo]; ring

theorem abs_innerRe_le {d : ℕ} (f g : Row d) :
    |innerRe f g| ≤ rowNorm f * rowNorm g := by
  set x : EuclideanSpace ℂ (Fin d) := (WithLp.equiv 2 (Fin d → ℂ)).symm f with hxdef
  set y : EuclideanSpace ℂ (Fin d) := (WithLp.equiv 2 (Fin d → ℂ)).symm g with hydef
  have hx : ‖x‖ = rowNorm f := by
    rw [EuclideanSpace.norm_eq]
    unfold rowNorm rowNormSq
    congr 1
    refine Finset.sum_congr rfl fun j _ => ?_
    rw [hxdef, WithLp.equiv_symm_pi_apply, Complex.norm_eq_abs, Complex.sq_abs]
  have hy : ‖y‖ = rowNorm g := by
    rw [EuclideanSpace.norm_eq]
    unfold rowNorm rowNormSq
    congr 1
    refine Finset.sum_congr rfl fun j _ => ?_
    rw [hydef, WithLp.equiv_symm_pi_apply, Complex.norm_eq_abs, Complex.sq_abs]
  have hi : innerRe f g = (inner x y : ℂ).re := by
    rw [PiLp.inner_apply]
    unfold innerRe
    rw [Complex.re_sum]
    refine Finset.sum_congr rfl fun j _ => ?_
    rw [hxdef, hydef, WithLp.equiv_symm_pi_apply, WithLp.equiv_symm_pi_apply]
    rfl
  rw [hi, ← hx, ← hy]
  calc |(inner x y : ℂ).re| ≤ Complex.abs (inner x y : ℂ) := Complex.abs_re_le_abs _
    _ = ‖(inner x y : ℂ)‖ := (Complex.norm_eq_abs _).symm
    _ ≤ ‖x‖ * ‖y‖ := norm_inner_le_norm x y

theorem clipInner_of_unit {d : ℕ} {f g : Row d} (hf : rowNorm f = 1)
    (hg : rowNorm g = 1) : clipInner f g = innerRe f g := by
  have h := abs_innerRe_le f g
  rw [hf, hg, mul_one] at h
  unfold clipInner
  rw [min_eq_right (abs_le.mp h).2, max_eq_right (abs_le.mp h).1]

theorem neg_one_le_clipInner {d : ℕ} (f g : Row d) : -1 ≤ clipInner f g :=
  le_max_left _ _

theorem clipInner_le_one {d : ℕ} (f g : Row d) : clipInner f g ≤ 1 :=
  max_le (by norm_num) (min_le_left _ _)

theorem cos_thetaRow {d : ℕ} (f g : Row d) :
    Real.cos (thetaRow f g) = clipInner f g :=
  Real.cos_arccos (neg_one_le_clipInner f g) (clipInner_le_one f g)

theorem thetaRow_nonneg {d : ℕ} (f g : Row d) : 0 ≤ thetaRow f g :=
  Real.arccos_nonneg _

theorem thetaRow_le_pi {d : ℕ} (f g : Row d) : thetaRow f g ≤ Real.pi :=
  Real.arccos_le_pi _

/-! ### The first non-zero coordinate and the gauge fix -/

theorem firstNonzero_eq_none_iff {d : ℕ} {v : Row d} :
    firstNonzero v = none ↔ v = 0 := by
  unfold firstNonzero
  split
  next h =>
    refine iff_of_false (by simp) ?_
    intro h0
    obtain ⟨j, hj⟩ := h
    rw [Finset.mem_filter] at hj
    refine hj.2 ?_
    rw [h0]; rfl
  next h =>
    refine iff_of_true rfl ?_
    funext j
    simp only [Pi.zero_apply]
    by_contra hj
    exact h ⟨j, Finset.mem_filter.mpr ⟨Finset.mem_univ j, hj⟩⟩

theorem firstNonzero_eq_some_iff {d : ℕ} {v : Row d} {j : Fin d} :
    firstNonzero v = some j ↔ v j ≠ 0 ∧ ∀ k, k < j → v k = 0 := by
  unfold firstNonzero
  split
  next h =>
    simp only [Option.some.injEq]
    constructor
    · rintro rfl
      refine ⟨?_, ?_⟩
      · have hm := Finset.min'_mem _ h
        rw [Finset.mem_filter] at hm
        exact hm.2
      · intro k hk
        by_contra hvk
        have hkm : k ∈ Finset.univ.filter (fun j : Fin d => v j ≠ 0) :=
          Finset.mem_filter.mpr ⟨Finset.mem_univ k, hvk⟩
        have hk' := Finset.min'_le _ k hkm
        exact absurd hk (not_lt.mpr hk')
    · rintro ⟨hj, hlt⟩
      refine le_antisymm ?_ ?_
      · exact Finset.min'_le _ j (Finset.mem_filter.mpr ⟨Finset.mem_univ j, hj⟩)
      · by_contra hnot
        push_neg at hnot
        have hm := Finset.min'_mem _ h
        rw [Finset.mem_filter] at hm
        exact hm.2 (hlt _ hnot)
  next h =>
    refine iff_of_false (by simp) ?_
    rintro ⟨hj, -⟩
    exact h ⟨j, Finset.mem_filter.mpr ⟨Finset.mem_univ j, hj⟩⟩

theorem mul_exp_neg_arg (z : ℂ) :
    z * Complex.exp (-(Complex.arg z : ℂ) * Complex.I) = (Complex.abs z : ℂ) := by
  rcases eq_or_ne z 0 with rfl | hz
  · simp
  · have habs : (Complex.abs z : ℂ) ≠ 0 :=
      Complex.ofReal_ne_zero.mpr (Complex.abs.ne_zero hz)
    have hexp : Complex.exp ((Complex.arg z : ℂ) * Complex.I)
        = z / (Complex.abs z : ℂ) := by
      rw [eq_div_iff habs, mul_comm]
      exact Complex.abs_mul_exp_arg_mul_I z
    have hneg : -(Complex.arg z : ℂ) * Complex.I
        = -((Complex.arg z : ℂ) * Complex.I) := by ring
    rw [hneg, Complex.exp_neg, hexp]
    field_simp

theorem normSq_exp_neg_arg (r : ℝ) :
    Complex.normSq (Complex.exp (-(r : ℂ) * Complex.I)) = 1 := by
  have h : -(r : ℂ) * Complex.I = ((-r : ℝ) : ℂ) * Complex.I := by push_cast; ring
  rw [← Complex.sq_abs, h, Complex.abs_exp_ofReal_mul_I]
  norm_num

theorem rowNormSq_mul_unit {d : ℕ} (v : Row d) (c : ℂ)
    (hc : Complex.normSq c = 1) :
    rowNormSq (fun k => v k * c) = rowNormSq v := by
  unfold rowNormSq
  refine Finset.sum_congr rfl fun j _ => ?_
  rw [Complex.normSq_mul, hc, mul_one]

theorem firstNonzero_mul_unit {d : ℕ} (v : Row d) (c : ℂ) (hc : c ≠ 0) :
    firstNonzero (fun k => v k * c) = firstNonzero v := by
  rcases h : firstNonzero v with _ | j
  · rw [firstNonzero_eq_none_iff.mp h]
    rw [firstNonzero_eq_none_iff]
    funext k
    simp
  · obtain ⟨hj, hlt⟩ := firstNonzero_eq_some_iff.mp h
    refine firstNonzero_eq_some_iff.mpr ⟨mul_ne_zero hj hc, fun k hk => ?_⟩
    rw [hlt k hk, zero_mul]

/-! ### Renormalisation -/

theorem normaliseRow_of_norm_one {d : ℕ} {v : Row d} (h : rowNorm v = 1) :
    normaliseRow v = v := by
  unfold normaliseRow
  funext j
  rw [h]
  simp

theorem rowNormSq_normaliseRow {d : ℕ} (v : Row d) (hv : v ≠ 0) :
    rowNormSq (normaliseRow v) = 1 := by
  have hn : rowNormSq v ≠ 0 := fun h0 => hv (rowNormSq_eq_zero_iff.mp h0)
  unfold normaliseRow rowNormSq
  simp only [Complex.normSq_div, Complex.normSq_ofReal]
  rw [← Finset.sum_div]
  have h2 : rowNorm v * rowNorm v = rowNormSq v := by
    have := rowNorm_sq v
    nlinarith [this]
  rw [h2]
  exact div_self hn

theorem renormaliseRow_of_validRow {d : ℕ} {v : Row d} (hv : ValidRow v) :
    renormaliseRow v = v := by
  obtain ⟨h1, h2⟩ := hv
  unfold renormaliseRow
  rw [normaliseRow_of_norm_one h1]
  rcases h : firstNonzero v with _ | j
  · simp only [gaugeFixRow, h]
  · obtain ⟨him, hre⟩ := h2 j h
    have harg : Complex.arg (v j) = 0 :=
      Complex.arg_eq_zero_iff.mpr ⟨le_of_lt hre, him⟩
    simp only [gaugeFixRow, h, harg]
    funext k
    simp

theorem validRow_renormaliseRow {d : ℕ} {v : Row d} (hv : v ≠ 0) :
    ValidRow (renormaliseRow v) := by
  set w := normaliseRow v with hw
  have hw1 : rowNormSq w = 1 := rowNormSq_normaliseRow v hv
  have hwn : rowNorm w = 1 := by
    unfold rowNorm
    rw [hw1]
    exact Real.sqrt_one
  have hwne : w ≠ 0 := by
    intro h0
    rw [h0] at hw1
    rw [show rowNormSq (0 : Row d) = 0 from rowNormSq_eq_zero_iff.mpr rfl] at hw1
    norm_num at hw1
  rcases hfn : firstNonzero w with _ | j
  · exact absurd (firstNonzero_eq_none_iff.mp hfn) hwne
  · obtain ⟨hj, -⟩ := firstNonzero_eq_some_iff.mp hfn
    unfold renormaliseRow
    rw [← hw]
    simp only [gaugeFixRow, hfn]
    constructor
    · unfold rowNorm
      rw [rowNormSq_mul_unit w _ (normSq_exp_neg_arg _), hw1]
      exact Real.sqrt_one
    · intro k hk
      rw [firstNonzero_mul_unit w _ (Complex.exp_ne_zero _), hfn] at hk
      obtain rfl : j = k := by injection hk
      dsimp only
      rw [mul_exp_neg_arg (w j)]
      exact ⟨Complex.ofReal_im _, by rw [Complex.ofReal_re]; exact Complex.abs.pos hj⟩

theorem isValid_fromArray {n d : ℕ} {M : Mat n d} (h : ∀ i, M i ≠ 0) :
    IsValid (fromArray M) := fun i => validRow_renormaliseRow (h i)

theorem renormalise_of_isValid {n d : ℕ} {M : Mat n d} (h : IsValid M) :
    renormalise M = M :=
  funext fun i => renormaliseRow_of_validRow (h i)

/-! ### The exponential map -/

theorem eps_pos : (0 : ℝ) < eps := by unfold eps; norm_num

theorem rowNorm_zero {d : ℕ} : rowNorm (0 : Row d) = 0 :=
  rowNorm_eq_zero_iff.mpr rfl

theorem retractRow_zero {d : ℕ} (f : Row d) : retractRow f 0 = f := by
  unfold retractRow
  rw [if_pos (by rw [rowNorm_zero]; exact eps_pos)]
  funext j
  simp [rowNorm_zero]

theorem retract_zero_eq {n d : ℕ} {F : Mat n d} (hF : IsValid F) :
    retract F 0 = F := by
  unfold retract fromArray
  have h : (fun i => retractRow (F i) ((0 : Mat n d) i)) = F := by
    funext i
    exact retractRow_zero (F i)
  rw [h]
  exact renormalise_of_isValid hF

theorem rowNormSq_retractRow_big {d : ℕ} {f t : Row d} (hf : rowNorm f = 1)
    (ht : innerRe f t = 0) (hbig : ¬ rowNorm t < eps) :
    rowNormSq (retractRow f t) = 1 := by
  unfold retractRow
  rw [if_neg hbig]
  have hθ0 : rowNorm t ≠ 0 := by
    intro h0
    apply hbig
    rw [h0]
    exact eps_pos
  rw [rowNormSq_combo, rowNormSq_of_rowNorm_one hf, ht, ← rowNorm_sq t]
  field_simp

theorem rowNormSq_retractRow_small {d : ℕ} {f t : Row d} (hf : rowNorm f = 1)
    (ht : innerRe f t = 0) (hsmall : rowNorm t < eps) :
    rowNormSq (retractRow f t) = (1 - rowNorm t ^ 2 / 2) ^ 2 + rowNorm t ^ 2 := by
  unfold retractRow
  rw [if_pos hsmall]
  have hfun : (fun j => ((1 - rowNorm t ^ 2 / 2 : ℝ) : ℂ) * f j + t j)
      = fun j => ((1 - rowNorm t ^ 2 / 2 : ℝ) : ℂ) * f j + ((1 : ℝ) : ℂ) * t j := by
    funext j
    push_cast
    ring
  rw [hfun, rowNormSq_combo, rowNormSq_of_rowNorm_one hf, ht, ← rowNorm_sq t]
  ring

theorem retractRow_ne_zero {d : ℕ} {f t : Row d} (hf : rowNorm f = 1)
    (ht : innerRe f t = 0) : retractRow f t ≠ 0 := by
  intro h0
  have hz : rowNormSq (retractRow f t) = 0 := by
    rw [h0]
    exact rowNormSq_eq_zero_iff.mpr rfl
  by_cases hsmall : rowNorm t < eps
  · have h := rowNormSq_retractRow_small hf ht hsmall
    rw [hz] at h
    nlinarith [sq_nonneg (rowNorm t ^ 2), sq_nonneg (rowNorm t)]
  · have h := rowNormSq_retractRow_big hf ht hsmall
    rw [hz] at h
    norm_num at h

theorem isValid_retract {n d : ℕ} {F T : Mat n d} (hF : IsValid F)
    (hT : IsTangent F T) : IsValid (retract F T) := by
  unfold retract
  exact isValid_fromArray fun i => retractRow_ne_zero (hF i).1 (hT i)

/-! ### Round trips between `retract` and `log_map` -/

theorem retractRow_big {d : ℕ} {f t : Row d} (hbig : ¬ rowNorm t < eps) :
    retractRow f t = fun j =>
      ((Real.cos (rowNorm t) : ℝ) : ℂ) * f j
        + ((Real.sin (rowNorm t) / rowNorm t : ℝ) : ℂ) * t j := by
  unfold retractRow
  rw [if_neg hbig]

theorem validRow_of_normSq_one {d : ℕ} {v : Row d} (h : rowNormSq v = 1)
    (hg : ∀ j, firstNonzero v = some j → (v j).im = 0 ∧ 0 < (v j).re) :
    ValidRow v :=
  ⟨by unfold rowNorm; rw [h]; exact Real.sqrt_one, hg⟩

theorem retract_row_eq {n d : ℕ} (F T : Mat n d) (i : Fin n) :
    retract F T i = renormaliseRow (retractRow (F i) (T i)) := rfl

theorem logMap_apply {n d : ℕ} (F G : Mat n d) (i : Fin n) (j : Fin d) :
    logMap F G i j
      = ((if thetaRow (F i) (G i) > eps
            then thetaRow (F i) (G i) / Real.sin (thetaRow (F i) (G i))
            else 0 : ℝ) : ℂ)
        * (G i j - (clipInner (F i) (G i) : ℂ) * F i j) := rfl

/-- Per-row engine for the `log_map ∘ retract` round trip on a row whose
tangent part vanishes. -/
theorem logMap_self_row {n d : ℕ} (F G : Mat n d) (i : Fin n) (j : Fin d)
    (hrow : G i = F i) (hv : ValidRow (F i)) : logMap F G i j = 0 := by
  rw [logMap_apply]
  have hclip : clipInner (F i) (G i) = 1 := by
    rw [hrow, clipInner_of_unit hv.1 hv.1, innerRe_self,
      rowNormSq_of_rowNorm_one hv.1]
  have hθ : thetaRow (F i) (G i) = 0 := by
    unfold thetaRow
    rw [hclip]
    exact Real.arccos_one
  rw [hθ, if_neg (by push_neg; exact le_of_lt eps_pos)]
  norm_num

/-- Per-row engine for `log_map(F, retract(F, ξ)) = ξ`, main branch:
`1e-12 < ‖ξ_i‖ < π` and the geodesic-step row is already gauge-fixed. -/
theorem log_retract_row_big {n d : ℕ} (F Ξ : Mat n d) (i : Fin n)
    (hv : ValidRow (F i)) (ht : innerRe (F i) (Ξ i) = 0)
    (hπ : rowNorm (Ξ i) < Real.pi) (hbig : eps < rowNorm (Ξ i))
    (hG : retract F Ξ i = retractRow (F i) (Ξ i)) :
    ∀ j, logMap F (retract F Ξ) i j = Ξ i j := by
  intro j
  have hnlt : ¬ rowNorm (Ξ i) < eps := not_lt.mpr (le_of_lt hbig)
  have hθpos : 0 < rowNorm (Ξ i) := lt_trans eps_pos hbig
  have hsin : 0 < Real.sin (rowNorm (Ξ i)) :=
    Real.sin_pos_of_pos_of_lt_pi hθpos hπ
  have hraw := retractRow_big (f := F i) (t := Ξ i) hnlt
  have hinner : innerRe (F i) (retract F Ξ i) = Real.cos (rowNorm (Ξ i)) := by
    rw [hG, hraw, innerRe_combo_right, innerRe_self,
      rowNormSq_of_rowNorm_one hv.1, ht]
    ring
  have hclip : clipInner (F i) (retract F Ξ i) = Real.cos (rowNorm (Ξ i)) := by
    unfold clipInner
    rw [hinner, min_eq_right (Real.cos_le_one _),
      max_eq_right (Real.neg_one_le_cos _)]
  have htheta : thetaRow (F i) (retract F Ξ i) = rowNorm (Ξ i) := by
    unfold thetaRow
    rw [hclip]
    exact Real.arccos_cos (le_of_lt hθpos) (le_of_lt hπ)
  rw [logMap_apply, htheta, hclip, if_pos hbig, hG, hraw]
  have hθC : ((rowNorm (Ξ i) : ℝ) : ℂ) ≠ 0 :=
    Complex.ofReal_ne_zero.mpr (ne_of_gt hθpos)
  have hsinC : Complex.sin ((rowNorm (Ξ i) : ℝ) : ℂ) ≠ 0 := by
    rw [← Complex.ofReal_sin]
    exact Complex.ofReal_ne_zero.mpr (ne_of_gt hsin)
  push_cast
  field_simp
  ring

/-- The `log_map ∘ retract` round trip, with the hypotheses under which it
holds exactly: a valid base frame, a tangent perturbation, per-row norm
below `π` and either zero or above the `1e-12` threshold, and a geodesic
step that is already in canonical gauge (first non-zero coordinate
real-positive), so that the final renormalisation is the identity. -/
theorem log_retract_roundtrip {n d : ℕ} (F Ξ : Mat n d) (hF : IsValid F)
    (hT : IsTangent F Ξ) (hπ : ∀ i, rowNorm (Ξ i) < Real.pi)
    (hng : ∀ i, rowNorm (Ξ i) = 0 ∨ eps < rowNorm (Ξ i))
    (hg : ∀ i j, firstNonzero (retractRow (F i) (Ξ i)) = some j →
      (retractRow (F i) (Ξ i) j).im = 0 ∧ 0 < (retractRow (F i) (Ξ i) j).re) :
    logMap F (retract F Ξ) = Ξ := by
  funext i j
  rcases hng i with h0 | hbig
  · have hti : Ξ i = 0 := rowNorm_eq_zero_iff.mp h0
    have hrow : retract F Ξ i = F i := by
      rw [retract_row_eq, hti, retractRow_zero]
      exact renormaliseRow_of_validRow (hF i)
    rw [logMap_self_row F (retract F Ξ) i j hrow (hF i), hti]
    rfl
  · have hnlt : ¬ rowNorm (Ξ i) < eps := not_lt.mpr (le_of_lt hbig)
    have hrawSq : rowNormSq (retractRow (F i) (Ξ i)) = 1 :=
      rowNormSq_retractRow_big (hF i).1 (hT i) hnlt
    have hG : retract F Ξ i = retractRow (F i) (Ξ i) := by
      rw [retract_row_eq]
      exact renormaliseRow_of_validRow (validRow_of_normSq_one hrawSq (hg i))
    exact log_retract_row_big F Ξ i (hF i) (hT i) (hπ i) hbig hG j

theorem rowNormSq_scaled_diff {d : ℕ} (f g : Row d) (s x : ℝ)
    (hf : rowNormSq f = 1) (hg : rowNormSq g = 1) (hx : innerRe f g = x) :
    rowNormSq (fun j => (s : ℂ) * (g j - (x : ℂ) * f j)) = s ^ 2 * (1 - x ^ 2) := by
  have hfun : (fun j => (s : ℂ) * (g j - (x : ℂ) * f j))
      = fun j => ((-(s * x) : ℝ) : ℂ) * f j + ((s : ℝ) : ℂ) * g j := by
    funext j
    push_cast
    ring
  rw [hfun, rowNormSq_combo, hf, hg, hx]
  ring

/-- Per-row engine for `retract(F, log_map(F, G))`: on a row with clipped
angle `θ_i ∈ (1e-12, π)` the composite reproduces `G_i` exactly. -/
theorem retract_log_row_big {n d : ℕ} (F G : Mat n d) (hF : IsValid F)
    (hG : IsValid G) (i : Fin n) (hπ : thetaRow (F i) (G i) < Real.pi)
    (hbig : thetaRow (F i) (G i) > eps) :
    retract F (logMap F G) i = G i := by
  have hx : clipInner (F i) (G i) = innerRe (F i) (G i) :=
    clipInner_of_unit (hF i).1 (hG i).1
  have hcos : Real.cos (thetaRow (F i) (G i)) = innerRe (F i) (G i) := by
    rw [cos_thetaRow, hx]
  have hθpos : 0 < thetaRow (F i) (G i) := lt_trans eps_pos hbig
  have hsin : 0 < Real.sin (thetaRow (F i) (G i)) :=
    Real.sin_pos_of_pos_of_lt_pi hθpos hπ
  have hTrow : logMap F G i = fun j =>
      ((thetaRow (F i) (G i) / Real.sin (thetaRow (F i) (G i)) : ℝ) : ℂ)
        * (G i j - (innerRe (F i) (G i) : ℂ) * F i j) := by
    funext j
    rw [logMap_apply, if_pos hbig, hx]
  have hTSq : rowNormSq (logMap F G i) = thetaRow (F i) (G i) ^ 2 := by
    rw [hTrow, rowNormSq_scaled_diff (F i) (G i) _ _
      (rowNormSq_of_rowNorm_one (hF i).1) (rowNormSq_of_rowNorm_one (hG i).1) rfl]
    rw [← hcos, ← Real.sin_sq]
    field_simp
  have hTn : rowNorm (logMap F G i) = thetaRow (F i) (G i) := by
    unfold rowNorm
    rw [hTSq]
    exact Real.sqrt_sq (le_of_lt hθpos)
  have hnlt : ¬ rowNorm (logMap F G i) < eps := by
    rw [hTn]
    exact not_lt.mpr (le_of_lt hbig)
  have hrawG : retractRow (F i) (logMap F G i) = G i := by
    rw [retractRow_big hnlt]
    funext j
    rw [hTn, hTrow]
    dsimp only
    rw [hcos]
    have hs : ((Real.sin (thetaRow (F i) (G i)) / thetaRow (F i) (G i) : ℝ) : ℂ)
        * ((thetaRow (F i) (G i) / Real.sin (thetaRow (F i) (G i)) : ℝ) : ℂ) = 1 := by
      rw [← Complex.ofReal_mul]
      have hre : (Real.sin (thetaRow (F i) (G i)) / thetaRow (F i) (G i))
          * (thetaRow (F i) (G i) / Real.sin (thetaRow (F i) (G i))) = 1 := by
        field_simp
      rw [hre, Complex.ofReal_one]
    linear_combination (G i j - ((innerRe (F i) (G i) : ℝ) : ℂ) * F i j) * hs
  rw [retract_row_eq, hrawG]
  exact renormaliseRow_of_validRow (hG i)

/-- Per-row engine for `retract(F, log_map(F, G))`: on a row with clipped
angle `θ_i ≤ 1e-12` the log-map row is zero and the composite returns
`F_i`, which is within `θ_i ≤ 1e-12` of `G_i` in row norm. -/
theorem retract_log_row_small {n d : ℕ} (F G : Mat n d) (hF : IsValid F)
    (hG : IsValid G) (i : Fin n) (hsmall : ¬ thetaRow (F i) (G i) > eps) :
    rowNorm (fun j => retract F (logMap F G) i j - G i j) ≤ eps := by
  have hx : clipInner (F i) (G i) = innerRe (F i) (G i) :=
    clipInner_of_unit (hF i).1 (hG i).1
  have hcos : Real.cos (thetaRow (F i) (G i)) = innerRe (F i) (G i) := by
    rw [cos_thetaRow, hx]
  have hTzero : logMap F G i = (0 : Row d) := by
    funext j
    rw [logMap_apply, if_neg hsmall]
    simp
  have hrow : retract F (logMap F G) i = F i := by
    rw [retract_row_eq, hTzero, retractRow_zero]
    exact renormaliseRow_of_validRow (hF i)
  have hsq : rowNormSq (fun j => retract F (logMap F G) i j - G i j)
      = 2 - 2 * Real.cos (thetaRow (F i) (G i)) := by
    have h1 : (fun j => retract F (logMap F G) i j - G i j)
        = fun j => F i j - G i j := by
      funext j
      rw [hrow]
    rw [h1, rowNormSq_sub, rowNormSq_of_rowNorm_one (hF i).1,
      rowNormSq_of_rowNorm_one (hG i).1, hcos]
    ring
  have h4 : 2 - 2 * Real.cos (thetaRow (F i) (G i))
      = 4 * ((1 - Real.cos (thetaRow (F i) (G i))) / 2) := by ring
  unfold rowNorm
  rw [hsq, h4, show (4 : ℝ) = 2 ^ 2 by norm_num, Real.sqrt_mul (by positivity) _,
    Real.sqrt_sq (by norm_num : (0:ℝ) ≤ 2), ← Real.abs_sin_half]
  have hbound : |Real.sin (thetaRow (F i) (G i) / 2)|
      ≤ thetaRow (F i) (G i) / 2 := by
    calc |Real.sin (thetaRow (F i) (G i) / 2)| ≤ |thetaRow (F i) (G i) / 2| :=
          Real.abs_sin_le_abs
      _ = thetaRow (F i) (G i) / 2 := abs_of_nonneg (by
          have := thetaRow_nonneg (F i) (G i)
          linarith)
  push_neg at hsmall
  have := thetaRow_nonneg (F i) (G i)
  linarith

/-! ### Concrete frames for witnesses and counterexamples -/

/-- The orthonormal frame with rows `(1,0)` and `(0,1)` in `d = 2`. -/
def id2 : Mat 2 2 := ![![1, 0], ![0, 1]]

theorem rowNormSq_pair (a b : ℂ) :
    rowNormSq ![a, b] = Complex.normSq a + Complex.normSq b := by
  unfold rowNormSq
  rw [Fin.sum_univ_two]
  simp

theorem rowNormSq_single (a : ℂ) : rowNormSq ![a] = Complex.normSq a := by
  unfold rowNormSq
  rw [Fin.sum_univ_one]
  simp

theorem innerRe_pair (a b c e : ℂ) :
    innerRe ![a, b] ![c, e]
      = ((starRingEnd ℂ) a * c).re + ((starRingEnd ℂ) b * e).re := by
  unfold innerRe
  rw [Fin.sum_univ_two]
  simp

theorem innerRe_single (a c : ℂ) :
    innerRe ![a] ![c] = ((starRingEnd ℂ) a * c).re := by
  unfold innerRe
  rw [Fin.sum_univ_one]
  simp

theorem firstNonzero_pair_left {a b : ℂ} (ha : a ≠ 0) :
    firstNonzero ![a, b] = some 0 := by
  refine firstNonzero_eq_some_iff.mpr ⟨by simpa using ha, fun k hk => ?_⟩
  fin_cases k
  · exact absurd hk (by decide)
  · exact absurd hk (by decide)

theorem firstNonzero_pair_right {b : ℂ} (hb : b ≠ 0) :
    firstNonzero ![(0 : ℂ), b] = some 1 := by
  refine firstNonzero_eq_some_iff.mpr ⟨by simpa using hb, fun k hk => ?_⟩
  fin_cases k
  · simp
  · exact absurd hk (by decide)

theorem firstNonzero_single {a : ℂ} (ha : a ≠ 0) :
    firstNonzero ![a] = some 0 := by
  refine firstNonzero_eq_some_iff.mpr ⟨by simpa using ha, fun k hk => ?_⟩
  fin_cases k
  exact absurd hk (by decide)

theorem validRow_e0 : ValidRow (![(1 : ℂ), 0]) := by
  constructor
  · unfold rowNorm
    rw [rowNormSq_pair]
    simp
  · intro j hj
    rw [firstNonzero_pair_left one_ne_zero] at hj
    obtain rfl : (0 : Fin 2) = j := by injection hj
    constructor <;> simp

theorem validRow_e1 : ValidRow (![(0 : ℂ), 1]) := by
  constructor
  · unfold rowNorm
    rw [rowNormSq_pair]
    simp
  · intro j hj
    rw [firstNonzero_pair_right one_ne_zero] at hj
    obtain rfl : (1 : Fin 2) = j := by injection hj
    constructor <;> simp

theorem isValid_id2 : IsValid id2 := by
  intro i
  fin_cases i
  · exact validRow_e0
  · exact validRow_e1

theorem validRow_one1 : ValidRow (![(1 : ℂ)]) := by
  constructor
  · unfold rowNorm
    rw [rowNormSq_single]
    simp
  · intro j hj
    rw [firstNonzero_single one_ne_zero] at hj
    obtain rfl : (0 : Fin 1) = j := by injection hj
    constructor <;> simp

theorem isValid_one1 : IsValid (![![(1 : ℂ)]] : Mat 1 1) := by
  intro i
  fin_cases i
  exact validRow_one1

theorem thetaRow_self_valid {d : ℕ} {f : Row d} (hf : ValidRow f) :
    thetaRow f f = 0 := by
  unfold thetaRow
  rw [clipInner_of_unit hf.1 hf.1, innerRe_self, rowNormSq_of_rowNorm_one hf.1]
  exact Real.arccos_one

/-! ### Concrete computations for claim C1 -/

theorem rowNorm_rowI : rowNorm (![Complex.I] : Row 1) = 1 := by
  unfold rowNorm
  rw [rowNormSq_single, Complex.normSq_I, Real.sqrt_one]

/-- The geodesic step of `retract` at base row `(1)` with tangent row `(i)`
lands on `(cos 1 + i sin 1)`, and the final renormalisation rotates it back
to `(1)`: the gauge fix eats the whole motion along the phase fibre. -/
theorem retract_c1_eq :
    retract (![![(1 : ℂ)]] : Mat 1 1) ![![Complex.I]] = ![![(1 : ℂ)]] := by
  have hnlt : ¬ rowNorm (![Complex.I] : Row 1) < eps := by
    rw [rowNorm_rowI]
    unfold eps
    norm_num
  have hraw : retractRow ![(1 : ℂ)] ![Complex.I]
      = ![(Real.cos 1 : ℂ) + (Real.sin 1 : ℂ) * Complex.I] := by
    rw [retractRow_big hnlt]
    funext k
    fin_cases k
    rw [rowNorm_rowI]
    simp
  have hz : Complex.normSq ((Real.cos 1 : ℂ) + (Real.sin 1 : ℂ) * Complex.I) = 1 := by
    rw [Complex.normSq_apply]
    simp only [Complex.add_re, Complex.add_im, Complex.mul_re, Complex.mul_im,
      Complex.I_re, Complex.I_im, Complex.ofReal_re, Complex.ofReal_im]
    nlinarith [Real.sin_sq_add_cos_sq 1]
  have hzne : ((Real.cos 1 : ℂ) + (Real.sin 1 : ℂ) * Complex.I) ≠ 0 := by
    intro h0
    rw [h0] at hz
    simp at hz
  have habs : Complex.abs ((Real.cos 1 : ℂ) + (Real.sin 1 : ℂ) * Complex.I) = 1 := by
    rw [Complex.abs_apply, hz, Real.sqrt_one]
  funext i j
  fin_cases i
  fin_cases j
  show renormaliseRow (retractRow ![(1 : ℂ)] ![Complex.I]) 0 = 1
  rw [hraw]
  unfold renormaliseRow
  have hn1 : rowNorm (![(Real.cos 1 : ℂ) + (Real.sin 1 : ℂ) * Complex.I] : Row 1) = 1 := by
    unfold rowNorm
    rw [rowNormSq_single, hz, Real.sqrt_one]
  rw [normaliseRow_of_norm_one hn1]
  have hfn : firstNonzero (![(Real.cos 1 : ℂ) + (Real.sin 1 : ℂ) * Complex.I] : Row 1)
      = some 0 := firstNonzero_single hzne
  simp only [gaugeFixRow, hfn]
  show ((Real.cos 1 : ℂ) + (Real.sin 1 : ℂ) * Complex.I)
      * Complex.exp (-(Complex.arg ((Real.cos 1 : ℂ) + (Real.sin 1 : ℂ) * Complex.I) : ℂ)
        * Complex.I) = 1
  rw [mul_exp_neg_arg, habs, Complex.ofReal_one]

/-- Claim C1 — counterexample.  The claim asserts that for any valid frame `F`
and tangent `ξ` with `Re⟨F_i, ξ_i⟩ = 0` and `‖ξ_i‖ < π`,
`log_map(F, retract(F, ξ))` recovers `ξ` within `1e-9` per entry.  At
`F = ((1))`, `ξ = ((i))` all premises hold, yet the final gauge fix in `retract`
maps the moved row back to `(1)`, so the log map returns `0` and the error
in the single entry is `1`. -/
theorem C1_counterexample :
    IsValid (![![(1 : ℂ)]] : Mat 1 1)
    ∧ IsTangent (![![(1 : ℂ)]] : Mat 1 1) ![![Complex.I]]
    ∧ rowNorm ((![![Complex.I]] : Mat 1 1) 0) < Real.pi
    ∧ ¬ Complex.abs (logMap (![![(1 : ℂ)]] : Mat 1 1)
          (retract ![![(1 : ℂ)]] ![![Complex.I]]) 0 0
        - (![![Complex.I]] : Mat 1 1) 0 0) ≤ 1e-9 := by
  refine ⟨isValid_one1, ?_, ?_, ?_⟩
  · intro i
    fin_cases i
    show innerRe ![(1 : ℂ)] ![Complex.I] = 0
    rw [innerRe_single]
    simp
  · show rowNorm (![Complex.I] : Row 1) < Real.pi
    rw [rowNorm_rowI]
    linarith [Real.pi_gt_three]
  · rw [retract_c1_eq]
    have h0 : logMap (![![(1 : ℂ)]] : Mat 1 1) ![![(1 : ℂ)]] 0 0 = 0 :=
      logMap_self_row _ _ 0 0 rfl (isValid_one1 0)
    rw [h0]
    show ¬ Complex.abs (0 - Complex.I) ≤ 1e-9
    rw [zero_sub, AbsoluteValue.map_neg, Complex.abs_I]
    norm_num

/-- Claim C1, amended.  The round trip `log_map(F, retract(F, ξ)) = ξ` holds
exactly — hence a fortiori within `1e-9` — for a valid frame `F` and a
tangent `ξ` with `Re⟨F_i, ξ_i⟩ = 0`, provided additionally that each row
norm is `0` or lies in `(1e-12, π)` and that each geodesic-step row is
already in canonical gauge (its first non-zero coordinate real-positive),
so that the renormalisation inside `retract` does not rotate the row.  The
counterexample shows the gauge condition cannot be dropped. -/
theorem C1_log_retract_roundtrip {n d : ℕ} (F Ξ : Mat n d) (hF : IsValid F)
    (hT : IsTangent F Ξ) (hπ : ∀ i, rowNorm (Ξ i) < Real.pi)
    (hng : ∀ i, rowNorm (Ξ i) = 0 ∨ eps < rowNorm (Ξ i))
    (hg : ∀ i j, firstNonzero (retractRow (F i) (Ξ i)) = some j →
      (retractRow (F i) (Ξ i) j).im = 0 ∧ 0 < (retractRow (F i) (Ξ i) j).re) :
    logMap F (retract F Ξ) = Ξ :=
  log_retract_roundtrip F Ξ hF hT hπ hng hg

theorem rowNorm_row01I : rowNorm (![(0 : ℂ), Complex.I] : Row 2) = 1 := by
  unfold rowNorm
  rw [rowNormSq_pair, Complex.normSq_I]
  simp

theorem raw01I : retractRow ![(1 : ℂ), 0] ![(0 : ℂ), Complex.I]
    = ![(Real.cos 1 : ℂ), (Real.sin 1 : ℂ) * Complex.I] := by
  have hnlt : ¬ rowNorm (![(0 : ℂ), Complex.I] : Row 2) < eps := by
    rw [rowNorm_row01I]
    unfold eps
    norm_num
  rw [retractRow_big hnlt]
  funext k
  rw [rowNorm_row01I]
  fin_cases k <;> simp

theorem cos_one_pos : 0 < Real.cos 1 := by
  apply Real.cos_pos_of_mem_Ioo
  constructor
  · linarith [Real.pi_gt_three]
  · linarith [Real.pi_gt_three]

/-- Witness for claim C1, amended: base row `(1, 0)`, tangent row `(0, i)`
of norm `1 ∈ (1e-12, π)`; the geodesic step lands on `(cos 1, i sin 1)`
whose first non-zero coordinate `cos 1` is real-positive, and the log map
recovers the tangent exactly. -/
theorem C1_witness :
    IsValid (![![(1 : ℂ), 0]] : Mat 1 2)
    ∧ IsTangent (![![(1 : ℂ), 0]] : Mat 1 2) ![![(0 : ℂ), Complex.I]]
    ∧ (∀ i, rowNorm ((![![(0 : ℂ), Complex.I]] : Mat 1 2) i) < Real.pi)
    ∧ logMap (![![(1 : ℂ), 0]] : Mat 1 2)
        (retract ![![(1 : ℂ), 0]] ![![(0 : ℂ), Complex.I]])
      = ![![(0 : ℂ), Complex.I]] := by
  have hF : IsValid (![![(1 : ℂ), 0]] : Mat 1 2) := by
    intro i
    fin_cases i
    exact validRow_e0
  have hT : IsTangent (![![(1 : ℂ), 0]] : Mat 1 2) ![![(0 : ℂ), Complex.I]] := by
    intro i
    fin_cases i
    show innerRe ![(1 : ℂ), 0] ![(0 : ℂ), Complex.I] = 0
    rw [innerRe_pair]
    simp
  have hπ : ∀ i, rowNorm ((![![(0 : ℂ), Complex.I]] : Mat 1 2) i) < Real.pi := by
    intro i
    fin_cases i
    show rowNorm (![(0 : ℂ), Complex.I] : Row 2) < Real.pi
    rw [rowNorm_row01I]
    linarith [Real.pi_gt_three]
  have hng : ∀ i, rowNorm ((![![(0 : ℂ), Complex.I]] : Mat 1 2) i) = 0
      ∨ eps < rowNorm ((![![(0 : ℂ), Complex.I]] : Mat 1 2) i) := by
    intro i
    fin_cases i
    right
    show eps < rowNorm (![(0 : ℂ), Complex.I] : Row 2)
    rw [rowNorm_row01I]
    unfold eps
    norm_num
  have hg : ∀ i j, firstNonzero (retractRow ((![![(1 : ℂ), 0]] : Mat 1 2) i)
        ((![![(0 : ℂ), Complex.I]] : Mat 1 2) i)) = some j →
      (retractRow ((![![(1 : ℂ), 0]] : Mat 1 2) i)
        ((![![(0 : ℂ), Complex.I]] : Mat 1 2) i) j).im = 0
      ∧ 0 < (retractRow ((![![(1 : ℂ), 0]] : Mat 1 2) i)
        ((![![(0 : ℂ), Complex.I]] : Mat 1 2) i) j).re := by
    intro i j hj
    fin_cases i
    have hj' : firstNonzero (![(Real.cos 1 : ℂ), (Real.sin 1 : ℂ) * Complex.I] : Row 2)
        = some j := by
      rw [← raw01I]
      exact hj
    rw [firstNonzero_pair_left
      (Complex.ofReal_ne_zero.mpr (ne_of_gt cos_one_pos))] at hj'
    obtain rfl : (0 : Fin 2) = j := by injection hj'
    show (retractRow ![(1 : ℂ), 0] ![(0 : ℂ), Complex.I] 0).im = 0
      ∧ 0 < (retractRow ![(1 : ℂ), 0] ![(0 : ℂ), Complex.I] 0).re
    rw [raw01I, Matrix.cons_val_zero]
    exact ⟨Complex.ofReal_im _, by rw [Complex.ofReal_re]; exact cos_one_pos⟩
  exact ⟨hF, hT, hπ, C1_log_retract_roundtrip _ _ hF hT hπ hng hg⟩

/-! ### Claims C2 to C6 -/

theorem normaliseRow_zero {d : ℕ} : normaliseRow (0 : Row d) = 0 := by
  unfold normaliseRow
  funext j
  simp

theorem renormaliseRow_zero {d : ℕ} : renormaliseRow (0 : Row d) = 0 := by
  unfold renormaliseRow
  rw [normaliseRow_zero]
  have h : firstNonzero (0 : Row d) = none := firstNonzero_eq_none_iff.mpr rfl
  simp only [gaugeFixRow, h]

theorem innerRe_zero_right {d : ℕ} (f : Row d) : innerRe f 0 = 0 := by
  unfold innerRe
  simp

/-- Claim C2 — counterexample.  `from_array` applied to the `1×1` zero matrix
returns a Frame without raising, and its single row still has norm `0`,
not `1`: the claimed invariants do not hold for every publicly constructed
Frame. -/
theorem C2_counterexample : ¬ IsValid (fromArray (![![(0 : ℂ)]] : Mat 1 1)) := by
  intro h
  have h0 := (h 0).1
  have hz : fromArray (![![(0 : ℂ)]] : Mat 1 1) 0 = (0 : Row 1) := by
    show renormaliseRow ((![![(0 : ℂ)]] : Mat 1 1) 0) = 0
    have hrow : (![![(0 : ℂ)]] : Mat 1 1) 0 = (0 : Row 1) := by
      funext k
      fin_cases k
      simp
    rw [hrow, renormaliseRow_zero]
  rw [hz, rowNorm_zero] at h0
  norm_num at h0

/-- Claim C2, amended.  Every Frame produced by `from_array`, `random`,
`copy`, `load_npy` satisfies the manifold invariants (unit row norms and
first non-zero coordinate real-positive) provided every row of the array
reaching `renormalise` is non-zero, and `retract` preserves validity for a
tangent perturbation (its documented precondition `Re⟨F_i, ξ_i⟩ = 0`).  The
counterexample shows the non-zero-row proviso cannot be dropped. -/
theorem C2_invariants {n d : ℕ} :
    (∀ M : Mat n d, (∀ i, M i ≠ 0) → IsValid (fromArray M))
    ∧ (∀ Z : Mat n d, (∀ i, Z i ≠ 0) → IsValid (randomFrame Z))
    ∧ (∀ M : Mat n d, (∀ i, M i ≠ 0) → IsValid (copyFrame M))
    ∧ (∀ A : Mat n d, (∀ i, A i ≠ 0) → IsValid (loadNpy A))
    ∧ (∀ F T : Mat n d, IsValid F → IsTangent F T → IsValid (retract F T)) :=
  ⟨fun _ h => isValid_fromArray h, fun _ h => isValid_fromArray h,
   fun _ h => isValid_fromArray h, fun _ h => isValid_fromArray h,
   fun _ _ hF hT => isValid_retract hF hT⟩

/-- Witness for claim C2, amended: the identity frame has non-zero rows, and
the zero array is tangent to it. -/
theorem C2_witness : IsValid (fromArray id2) ∧ IsValid (retract id2 0) := by
  have hne : ∀ i, id2 i ≠ 0 := by
    intro i h0
    fin_cases i
    · exact one_ne_zero (by simpa using congrFun h0 0)
    · exact one_ne_zero (by simpa using congrFun h0 1)
  have htan : IsTangent id2 (0 : Mat 2 2) := fun i => innerRe_zero_right (id2 i)
  exact ⟨C2_invariants.1 id2 hne, C2_invariants.2.2.2.2 id2 0 isValid_id2 htan⟩

/-- Claim C3.  For valid frames `F`, `G` with per-row clipped geodesic angle
`θ_i < π`, `retract(F, log_map(F, G))` equals `G` up to floating-point
precision: each row of the composite differs from `G_i` by at most `1e-12`
in Euclidean norm (rows with `θ_i > 1e-12` are reproduced exactly; rows
with `θ_i ≤ 1e-12` give back `F_i`, within `θ_i` of `G_i`). -/
theorem C3_retract_log {n d : ℕ} (F G : Mat n d) (hF : IsValid F)
    (hG : IsValid G) (hπ : ∀ i, thetaRow (F i) (G i) < Real.pi) :
    ∀ i, rowNorm (fun j => retract F (logMap F G) i j - G i j) ≤ eps := by
  intro i
  by_cases hbig : thetaRow (F i) (G i) > eps
  · have h := retract_log_row_big F G hF hG i (hπ i) hbig
    have hdiff : (fun j => retract F (logMap F G) i j - G i j) = (0 : Row d) := by
      funext j
      rw [congrFun h j]
      simp
    rw [hdiff, rowNorm_zero]
    exact le_of_lt eps_pos
  · exact retract_log_row_small F G hF hG i hbig

/-- Witness for claim C3 at `F = G = id2` (all angles `0 < π`). -/
theorem C3_witness :
    IsValid id2 ∧ thetaRow (id2 0) (id2 0) < Real.pi
    ∧ rowNorm (fun j => retract id2 (logMap id2 id2) 0 j - id2 0 j) ≤ eps := by
  have hπ : ∀ i, thetaRow (id2 i) (id2 i) < Real.pi := by
    intro i
    rw [thetaRow_self_valid (isValid_id2 i)]
    exact Real.pi_pos
  exact ⟨isValid_id2, hπ 0, C3_retract_log id2 id2 isValid_id2 isValid_id2 hπ 0⟩

/-- Claim C4.  `retract` evaluates the per-row geodesic formula (with the
first-order fallback below `1e-12`) and renormalises — this is its
definition `retract = fromArray ∘ (retractRow row-wise)` in this file — and
in particular `retract(F, 0)` returns a Frame equal to `F` for any valid
`F`: the zero tangent takes the fallback branch, reproduces each row, and
renormalisation fixes a valid frame. -/
theorem C4_retract_zero {n d : ℕ} (F : Mat n d) (hF : IsValid F) :
    retract F 0 = F :=
  retract_zero_eq hF

/-- Witness for claim C4 at the identity frame. -/
theorem C4_witness : retract id2 0 = id2 :=
  C4_retract_zero id2 isValid_id2

/-- Claim C5.  `renormalise` is idempotent: on a valid Frame (unit rows,
gauge fixed) it is the identity, hence a second application changes
nothing — exactly, in the real-arithmetic model. -/
theorem C5_renormalise_idempotent {n d : ℕ} (M : Mat n d) (h : IsValid M) :
    renormalise M = M ∧ renormalise (renormalise M) = renormalise M := by
  have h1 := renormalise_of_isValid h
  exact ⟨h1, by rw [h1]; exact h1⟩

/-- Witness for claim C5 at the identity frame. -/
theorem C5_witness :
    renormalise id2 = id2 ∧ renormalise (renormalise id2) = renormalise id2 :=
  C5_renormalise_idempotent id2 isValid_id2

/-- Claim C6.  For a valid frame `F` (unit rows) and any ambient array `A`,
the projection `ξ = project(F, A)` satisfies `Re⟨F_i, ξ_i⟩ = 0` for every
row.  (`project` is pure in this model: neither argument is modified.) -/
theorem C6_project_tangent {n d : ℕ} (F A : Mat n d) (hF : IsValid F) :
    ∀ i, innerRe (F i) (project F A i) = 0 := by
  intro i
  have hfun : project F A i
      = fun j => ((1 : ℝ) : ℂ) * A i j
          + ((-(innerRe (A i) (F i)) : ℝ) : ℂ) * F i j := by
    funext j
    show A i j - (innerRe (A i) (F i) : ℂ) * F i j = _
    push_cast
    ring
  rw [hfun, innerRe_combo_right, innerRe_self,
    rowNormSq_of_rowNorm_one (hF i).1, innerRe_comm (F i) (A i)]
  ring

/-- Witness for claim C6: the identity frame against the all-ones array. -/
theorem C6_witness : innerRe (id2 0) (project id2 (fun _ _ => (1 : ℂ)) 0) = 0 :=
  C6_project_tangent id2 (fun _ _ => (1 : ℂ)) isValid_id2 0

/-! ### Claims C7 to C10 -/

theorem gram_swap {n d : ℕ} (M : Mat n d) (i k : Fin n) :
    gram M k i = (starRingEnd ℂ) (gram M i k) := by
  unfold gram
  rw [map_sum]
  refine Finset.sum_congr rfl fun j _ => ?_
  rw [map_mul, Complex.conj_conj]
  ring

theorem gram_id2 : gram id2 = ![![1, 0], ![0, 1]] := by
  funext i k
  fin_cases i <;> fin_cases k <;>
    simp [gram, id2, Fin.sum_univ_two]

/-- Claim C7.  `chordal_distances` is symmetric with zero diagonal and values
in `[0, 2]` for any matrix, and at the orthonormal frame `((1,0),(0,1))`
the Gram matrix is the identity and the distance matrix is
`((0,2),(2,0))`. -/
theorem C7_chordal :
    (∀ (n d : ℕ) (M : Mat n d) (i k : Fin n),
        chordalDistances M i k = chordalDistances M k i)
    ∧ (∀ (n d : ℕ) (M : Mat n d) (i : Fin n), chordalDistances M i i = 0)
    ∧ (∀ (n d : ℕ) (M : Mat n d) (i k : Fin n),
        0 ≤ chordalDistances M i k ∧ chordalDistances M i k ≤ 2)
    ∧ gram id2 = ![![1, 0], ![0, 1]]
    ∧ chordalDistances id2 = ![![0, 2], ![2, 0]] := by
  refine ⟨?_, ?_, ?_, gram_id2, ?_⟩
  · intro n d M i k
    unfold chordalDistances
    by_cases h : i = k
    · subst h
      rfl
    · rw [if_neg h, if_neg fun hh => h hh.symm, gram_swap M i k, Complex.abs_conj]
  · intro n d M i
    unfold chordalDistances
    rw [if_pos rfl]
    simp
  · intro n d M i k
    unfold chordalDistances
    have hg : 0 ≤ (if i = k then 1 else Complex.abs (gram M i k) ^ 2 : ℝ) := by
      by_cases h : i = k
      · rw [if_pos h]
        norm_num
      · rw [if_neg h]
        positivity
    constructor
    · positivity
    · have hs : Real.sqrt (max (1 - (if i = k then 1
          else Complex.abs (gram M i k) ^ 2)) 0) ≤ 1 :=
        Real.sqrt_le_one.mpr (max_le (by linarith) (by norm_num))
      linarith
  · funext i k
    fin_cases i <;> fin_cases k <;>
      simp [chordalDistances, gram_id2, Real.sqrt_one]

/-- Claim C8 — code-bug evaluation at the failing input, an identically
zero row (the `1×1` zero matrix).  The claim — and the evident purpose of
the `if nz.size:` guard — is that such a row receives no gauge fix and is
left as the output of the per-row division.  In the program the division
`0.0 / 0.0` first turns the row into `nan+nanj` (first conjunct: the
IEEE-modelled quotient is non-finite), then `np.flatnonzero` tests
`!= 0`, which is true of `nan` (second conjunct), so the guard passes and
the gauge-fix multiply executes on the NaN row, keeping it non-finite
(third conjunct) — no error is raised, but the row is NaN, not the
post-division row left alone. -/
theorem C8_gauge_branch_runs :
    divByNorm (0 : Row 1) 0 = none
    ∧ flatnonzeroTest (divByNorm (0 : Row 1) 0)
    ∧ mulF (divByNorm (0 : Row 1) 0) none = none := by
  have h : divByNorm (0 : Row 1) 0 = none := by
    unfold divByNorm
    rw [if_pos rowNorm_zero]
  refine ⟨h, ?_, ?_⟩
  · rw [h]
    trivial
  · rw [h]
    rfl

/-- Claim C9.  The shape-checked `retract`/`log_map` fail with the
shape-mismatch `ValueError` exactly when the runtime shapes differ, and
succeed exactly when they agree; the check precedes any computation, and
in this pure model the base frame is untouched in either case. -/
theorem C9_shape_check (F T : CMat) :
    ((retractChk F T = Except.error "Tangent array shape mismatch.")
        ↔ ¬ (T.n = F.n ∧ T.d = F.d))
    ∧ ((∃ R, retractChk F T = Except.ok R) ↔ (T.n = F.n ∧ T.d = F.d))
    ∧ ((logMapChk F T = Except.error "Frame shapes mismatch")
        ↔ ¬ (F.n = T.n ∧ F.d = T.d))
    ∧ ((∃ R, logMapChk F T = Except.ok R) ↔ (F.n = T.n ∧ F.d = T.d)) := by
  refine ⟨?_, ?_, ?_, ?_⟩
  · unfold retractChk
    by_cases h : T.n = F.n ∧ T.d = F.d
    · rw [dif_pos h]
      simp [h]
    · rw [dif_neg h]
      simp [h]
  · unfold retractChk
    by_cases h : T.n = F.n ∧ T.d = F.d
    · rw [dif_pos h]
      simp [h]
    · rw [dif_neg h]
      simp [h]
  · unfold logMapChk
    by_cases h : F.n = T.n ∧ F.d = T.d
    · rw [dif_pos h]
      simp [h]
    · rw [dif_neg h]
      simp [h]
  · unfold logMapChk
    by_cases h : F.n = T.n ∧ F.d = T.d
    · rw [dif_pos h]
      simp [h]
    · rw [dif_neg h]
      simp [h]

/-- Claim C10.  The raw dataclass constructor stores the matrix unchanged
(no renormalisation): the row `(-2, 0)` — wrong norm and negative-real
leading entry — passes through `mkRaw` as-is and violates both
invariants, while `from_array` on the same input produces a valid
Frame. -/
theorem C10_raw_constructor :
    mkRaw (![![(-2 : ℂ), 0]] : Mat 1 2) = ![![(-2 : ℂ), 0]]
    ∧ ¬ IsValid (![![(-2 : ℂ), 0]] : Mat 1 2)
    ∧ IsValid (fromArray (![![(-2 : ℂ), 0]] : Mat 1 2)) := by
  have hns : Complex.normSq (-2 : ℂ) = 4 := by
    rw [show (-2 : ℂ) = ((-2 : ℝ) : ℂ) by norm_num, Complex.normSq_ofReal]
    norm_num
  refine ⟨rfl, ?_, ?_⟩
  · intro h
    have h0 : rowNorm (![(-2 : ℂ), 0] : Row 2) = 1 := (h 0).1
    have h2 : rowNorm (![(-2 : ℂ), 0] : Row 2) = 2 := by
      unfold rowNorm
      rw [rowNormSq_pair, hns]
      rw [show Complex.normSq (0 : ℂ) = 0 from map_zero _]
      rw [show (4 : ℝ) + 0 = 2 ^ 2 by norm_num,
        Real.sqrt_sq (by norm_num : (0 : ℝ) ≤ 2)]
    rw [h2] at h0
    norm_num at h0
  · apply isValid_fromArray
    intro i
    fin_cases i
    intro h0
    have := congrFun h0 0
    simp at this

end Evomof
